import Mathlib

/-!
Verification of the packet-surgery / timestamp-rebasing engine of the
d4t4m0sh repository, as a shallow embedding of the Python sources:

* `src/mosh.py`                              — `packet_surgery`
* `src/mosh_algorithms/avidemux_style_all.py`— `_packet_surgery` (drop modes)
* `src/aviglitch_mosh.py`                    — `_clamp_pivot_frame`,
  `_sanitize_repeat_count`, `build_bloom_sequence`,
  `_collect_video_frame_chunks`, `_estimate_packet_ticks`,
  `_mux_video_chunks`, `stamp_and_mux` and the
  `remove_iframes_and_duplicate_pframes` packet loop.

Timestamps are modelled as `Option Int` (ticks), seconds as `ℚ`.
-/

namespace Datamosh

/-- One demuxed access unit, as the Python code sees an `av.Packet`:
opaque payload bytes, optional pts/dts in stream ticks, keyframe flag. -/
structure Packet where
  payload : List Nat
  pts : Option Int
  dts : Option Int
  isKeyframe : Bool
deriving DecidableEq, Repr

/-- `FrameChunk` from `aviglitch_mosh.py`: the materialized copy of one
video packet kept by the bloom path. -/
structure FrameChunk where
  payload : List Nat
  frame_size : Nat
  pts : Option Int
  dts : Option Int
deriving DecidableEq, Repr

/-- A packet as written by `_mux_video_chunks`: every timestamp set,
plus the duration field the batch rebaser assigns. -/
structure MuxedPacket where
  payload : List Nat
  pts : Int
  dts : Int
  duration : Int
deriving DecidableEq, Repr

/-! ### `src/mosh.py` — `packet_surgery` -/

/-- `pkt_time` in `packet_surgery`:
`float(pkt.pts * vin.time_base) if pkt.pts is not None else 0`. -/
def mosh_pkt_time (tb : ℚ) (p : Packet) : ℚ :=
  match p.pts with
  | some v => (v : ℚ) * tb
  | none => 0

/-- The demux loop of `packet_surgery` (src/mosh.py lines 197-246),
threading the `keep_first_i` / `pending_drop` state explicitly. -/
def packet_surgery_aux (tb ws we : ℚ) (postcut : Int)
    (keepFirstI : Bool) (pending : Int) : List Packet → List Packet
  | [] => []
  | p :: rest =>
    if p.isKeyframe then
      if keepFirstI then
        p :: packet_surgery_aux tb ws we postcut false pending rest
      else if ws ≤ mosh_pkt_time tb p ∧ mosh_pkt_time tb p ≤ we then
        packet_surgery_aux tb ws we postcut keepFirstI postcut rest
      else
        p :: packet_surgery_aux tb ws we postcut keepFirstI pending rest
    else
      if 0 < pending then
        packet_surgery_aux tb ws we postcut keepFirstI (pending - 1) rest
      else
        p :: packet_surgery_aux tb ws we postcut keepFirstI pending rest

/-- `packet_surgery` of src/mosh.py: the window is
`[join_time_sec, join_time_sec + no_iframe_window]`; here passed as the
two bounds `ws`, `we` directly. -/
def packet_surgery (tb ws we : ℚ) (postcut : Int) (pkts : List Packet) :
    List Packet :=
  packet_surgery_aux tb ws we postcut true 0 pkts

/-! ### `src/mosh_algorithms/avidemux_style_all.py` — `_packet_surgery` -/

/-- The `drop_mode` parameter of `_packet_surgery`. -/
inductive DropMode where
  | allAfterFirst
  | boundariesOnly
deriving DecidableEq, Repr

/-- The demux loop of `_packet_surgery` in avidemux_style_all.py
(lines 86-121).  The per-boundary value
`n = random.randint(*pc_range) if pc_range else int(postcut)` is modelled
by an oracle `draws : Nat → Int` consulted once per armed drop, which
covers both the fixed-postcut and the random-range configuration. -/
def packet_surgery_all_aux (draws : Nat → Int) (mode : DropMode)
    (keepFirst : Bool) (pending boundariesLeft : Int) (drawIdx : Nat) :
    List Packet → List Packet
  | [] => []
  | p :: rest =>
    if p.isKeyframe then
      if keepFirst then
        p :: packet_surgery_all_aux draws mode false pending boundariesLeft drawIdx rest
      else
        match mode with
        | .boundariesOnly =>
          if 0 < boundariesLeft then
            packet_surgery_all_aux draws mode keepFirst (max 0 (draws drawIdx))
              (boundariesLeft - 1) (drawIdx + 1) rest
          else
            p :: packet_surgery_all_aux draws mode keepFirst pending boundariesLeft drawIdx rest
        | .allAfterFirst =>
          packet_surgery_all_aux draws mode keepFirst (max 0 (draws drawIdx))
            boundariesLeft (drawIdx + 1) rest
    else
      if 0 < pending then
        packet_surgery_all_aux draws mode keepFirst (pending - 1) boundariesLeft drawIdx rest
      else
        p :: packet_surgery_all_aux draws mode keepFirst pending boundariesLeft drawIdx rest

/-- `_packet_surgery` of avidemux_style_all.py: in `boundaries_only` mode
the code sets `boundaries_left = 10**9`; the counter is threaded in both
modes but only consulted in `boundaries_only`. -/
def packet_surgery_all (draws : Nat → Int) (mode : DropMode)
    (pkts : List Packet) : List Packet :=
  packet_surgery_all_aux draws mode true 0 (10 ^ 9) 0 pkts

/-- Modelled from the spec: the BoundaryMerge `BoundariesOnly` rule as
§4.2 of the spec words it, with `boundaries_remaining` initialized to
`clip_count - 1` (a parameter the code's `_packet_surgery` does not even
receive).  Written only for comparison against `packet_surgery_all`. -/
def packet_surgery_boundaries_spec (clipCount : Nat) (postcut : Int)
    (pkts : List Packet) : List Packet :=
  packet_surgery_all_aux (fun _ => postcut) .boundariesOnly true 0
    ((clipCount : Int) - 1) 0 pkts

/-! ### `src/aviglitch_mosh.py` — bloom path helpers -/

/-- `_clamp_pivot_frame` (aviglitch_mosh.py lines 139-147). -/
def clamp_pivot_frame (pivotFrame : Int) (frameCount : Nat) : Nat :=
  if frameCount = 0 then 0
  else if pivotFrame < 0 then 0
  else if (frameCount : Int) ≤ pivotFrame then frameCount - 1
  else pivotFrame.toNat

/-- `_sanitize_repeat_count`: `max(0, int(repeat_count))`. -/
def sanitize_repeat_count (rc : Int) : Nat := (max 0 rc).toNat

/-- `build_bloom_sequence` (aviglitch_mosh.py lines 174-190):
`prefix + [frames[pivot]] * repeat + suffix`, returning also the
clamped pivot and repeat count. -/
def build_bloom_sequence {α : Type} (frames : List α) (pivotFrame rc : Int) :
    List α × Nat × Nat :=
  match frames with
  | [] => ([], 0, sanitize_repeat_count rc)
  | _ :: _ =>
    let p := clamp_pivot_frame pivotFrame frames.length
    let r := sanitize_repeat_count rc
    let burst : List α :=
      match (frames.drop p).head? with
      | some x => List.replicate r x
      | none => []
    (frames.take p ++ burst ++ frames.drop p, p, r)

/-- `_collect_video_frame_chunks` (lines 193-209): skip packets with both
timestamps missing, skip packets with empty payload, keep the rest. -/
def collect_video_frame_chunks (pkts : List Packet) : List FrameChunk :=
  pkts.filterMap (fun p =>
    if p.dts = none ∧ p.pts = none then none
    else if p.payload = [] then none
    else some ⟨p.payload, p.payload.length, p.pts, p.dts⟩)

/-! ### `_estimate_packet_ticks` -/

/-- Successive positive differences of a timestamp list, as collected by
the two delta loops of `_estimate_packet_ticks`. -/
def successive_pos_deltas (vals : List Int) : List Int :=
  (vals.zip vals.tail).filterMap
    (fun q => if 0 < q.2 - q.1 then some (q.2 - q.1) else none)

/-- Python's `round` on an exact rational: round half to even. -/
def round_half_even (q : ℚ) : Int :=
  if q - ⌊q⌋ < 1 / 2 then ⌊q⌋
  else if 1 / 2 < q - ⌊q⌋ then ⌊q⌋ + 1
  else if ⌊q⌋ % 2 = 0 then ⌊q⌋ else ⌊q⌋ + 1

/-- The no-delta fallback of `_estimate_packet_ticks`:
`fps = fallback_fps or 24`; `max(1, int(round((1/fps) / time_base)))`,
returning 1 when the division raises (`time_base` zero). -/
def fallback_ticks (tb : ℚ) (fps : Option ℚ) : Int :=
  let f : ℚ :=
    match fps with
    | none => 24
    | some v => if v = 0 then 24 else v
  if tb = 0 then 1
  else max 1 (round_half_even ((1 / f) / tb))

/-- `_estimate_packet_ticks` (aviglitch_mosh.py lines 212-235). -/
def estimate_packet_ticks (chunks : List FrameChunk) (tb : ℚ)
    (fps : Option ℚ) : Int :=
  let dtsDeltas := successive_pos_deltas (chunks.filterMap (fun c => c.dts))
  let deltas :=
    if dtsDeltas = [] then
      successive_pos_deltas (chunks.filterMap (fun c => c.pts))
    else dtsDeltas
  match deltas.min? with
  | some m => max 1 m
  | none => fallback_ticks tb fps

/-! ### `_mux_video_chunks` — batch rebaser -/

/-- The `for idx, chunk in enumerate(chunks)` loop of `_mux_video_chunks`
with `base_pts = base_dts = 0`. -/
def mux_video_chunks_from (ft : Int) : Nat → List FrameChunk → List MuxedPacket
  | _, [] => []
  | idx, c :: rest =>
    ⟨c.payload, (idx : Int) * ft, (idx : Int) * ft, ft⟩
      :: mux_video_chunks_from ft (idx + 1) rest

/-- `_mux_video_chunks` (aviglitch_mosh.py lines 301-317):
`frame_ticks = max(1, ticks)`, timestamps `base + idx * frame_ticks`
with both bases fixed at 0. -/
def mux_video_chunks (ticks : Int) (chunks : List FrameChunk) :
    List MuxedPacket :=
  mux_video_chunks_from (max 1 ticks) 0 chunks

/-- The helper the spec comparison uses for an arbitrary base time. -/
def mux_video_chunks_spec_from (ft base : Int) :
    Nat → List FrameChunk → List MuxedPacket
  | _, [] => []
  | idx, c :: rest =>
    ⟨c.payload, base + (idx : Int) * ft, base + (idx : Int) * ft, ft⟩
      :: mux_video_chunks_spec_from ft base (idx + 1) rest

/-- Modelled from the spec: the batch Timestamp Rebaser as §4.3 words it,
with `base_time` taken from the first retained packet's original
timestamp when present and 0 otherwise.  Written only for comparison
against `mux_video_chunks`. -/
def mux_video_chunks_spec (ticks : Int) (chunks : List FrameChunk) :
    List MuxedPacket :=
  let base : Int :=
    match chunks with
    | [] => 0
    | c :: _ => ((c.pts).orElse (fun _ => c.dts)).getD 0
  mux_video_chunks_spec_from (max 1 ticks) base 0 chunks

/-! ### `remove_iframes_and_duplicate_pframes` — classic streaming path -/

/-- The mutable counters of the classic loop: the `next_pts`/`next_dts`
pair (both set together, `none` before the first stamp), plus
`first_keyframe_seen` and `dup_done`. -/
structure ClassicState where
  clock : Option (Int × Int)
  firstKeySeen : Bool
  dupDone : Bool
deriving DecidableEq, Repr

/-- `stamp_and_mux` (aviglitch_mosh.py lines 536-561): initialize the
counters from the first packet, then
`in_ts = max(incoming_or_next+interval, next + interval)`.
Returns the new `(next_pts, next_dts)` and the stamped packet. -/
def stamp_and_mux (ft : Int) (clock : Option (Int × Int)) (p : Packet) :
    (Int × Int) × Packet :=
  let base := p.pts.getD 0
  let np := match clock with | some c => c.1 | none => base
  let nd := match clock with | some c => c.2 | none => p.dts.getD base
  let inPts := max (p.pts.getD (np + ft)) (np + ft)
  let inDts := max (p.dts.getD (nd + ft)) (nd + ft)
  ((inPts, inDts), { p with pts := some inPts, dts := some inDts })

/-- The duplicate-emission loop: `k` fresh packets carrying the pivot
payload, timestamps advancing by `ft` from the given clock; returns the
copies and the final clock. -/
def dup_packets (ft : Int) (payload : List Nat) :
    Nat → Int × Int → List Packet × (Int × Int)
  | 0, c => ([], c)
  | Nat.succ k, c =>
    let c1 : Int × Int := (c.1 + ft, c.2 + ft)
    let r := dup_packets ft payload k c1
    (⟨payload, some c1.1, some c1.2, false⟩ :: r.1, r.2)

/-- `drop_start <= t <= drop_end`, applied only when both bounds are set. -/
def in_drop_window (ds de : Option ℚ) (t : ℚ) : Bool :=
  match ds, de with
  | some a, some b => decide (a ≤ t) && decide (t ≤ b)
  | _, _ => false

/-- `dup_at is not None and t >= dup_at`. -/
def dup_ready (da : Option ℚ) (t : ℚ) : Bool :=
  match da with
  | some a => decide (a ≤ t)
  | none => false

/-- One iteration of the video loop of
`remove_iframes_and_duplicate_pframes` (aviglitch_mosh.py lines 564-625):
skip packets with both timestamps missing; keep the first keyframe; drop
later keyframes inside the window; stamp and emit everything else; on the
first emitted non-keyframe at or past `dup_at`, emit
`min(dup_count, 20)` extra copies and latch `dup_done`. -/
def classic_step (tb : ℚ) (ft : Int) (ds de da : Option ℚ) (dupCount : Int)
    (s : ClassicState) (p : Packet) : ClassicState × List Packet :=
  if p.dts = none ∧ p.pts = none then (s, [])
  else
    let t : ℚ := ((p.dts.getD 0 : Int) : ℚ) * tb
    if p.isKeyframe ∧ s.firstKeySeen = false then
      let r := stamp_and_mux ft s.clock p
      (⟨some r.1, true, s.dupDone⟩, [r.2])
    else if p.isKeyframe ∧ in_drop_window ds de t then
      (s, [])
    else
      let r := stamp_and_mux ft s.clock p
      if s.dupDone = false ∧ p.isKeyframe = false ∧ dup_ready da t then
        let k := (min dupCount 20).toNat
        let d := dup_packets ft p.payload k r.1
        (⟨some d.2, s.firstKeySeen, true⟩, r.2 :: d.1)
      else
        (⟨some r.1, s.firstKeySeen, s.dupDone⟩, [r.2])

/-- The whole video loop, threading `ClassicState`. -/
def classic_loop (tb : ℚ) (ft : Int) (ds de da : Option ℚ) (dupCount : Int)
    (s : ClassicState) : List Packet → List Packet
  | [] => []
  | p :: rest =>
    let r := classic_step tb ft ds de da dupCount s p
    r.2 ++ classic_loop tb ft ds de da dupCount r.1 rest

/-- `remove_iframes_and_duplicate_pframes` restricted to its video packet
processing: initial state has no clock, no keyframe seen, no burst done.
`ft` is the `frame_ticks` value the function computes up front. -/
def remove_iframes_and_duplicate_pframes (tb : ℚ) (ft : Int)
    (ds de da : Option ℚ) (dupCount : Int) (pkts : List Packet) :
    List Packet :=
  classic_loop tb ft ds de da dupCount ⟨none, false, false⟩ pkts

/-- Packets the classic loop does not skip:
`not (dts is None and pts is None)`. -/
def has_timestamp (p : Packet) : Bool := !(p.dts.isNone && p.pts.isNone)

/-- Packets the bloom collection keeps: a timestamp and a non-empty
payload. -/
def chunk_source_ok (p : Packet) : Bool :=
  has_timestamp p && !p.payload.isEmpty

/-- The decode-time values of a packet list, defaulting to 0. -/
def dts_vals (l : List Packet) : List Int := l.map (fun p => p.dts.getD 0)

/-- A synthetic sequence of chunks whose decode times start at `start`
and advance by a constant `d` per chunk. -/
def const_delta_chunks (start d : Int) : Nat → List FrameChunk
  | 0 => []
  | Nat.succ k => ⟨[1], 1, none, some start⟩ :: const_delta_chunks (start + d) d k

/-! ## Helper lemmas -/

theorem clamp_pivot_frame_lt (pivotFrame : Int) (n : Nat) (h : n ≠ 0) :
    clamp_pivot_frame pivotFrame n < n := by
  simp only [clamp_pivot_frame]
  split_ifs <;> omega

/-! ## Claims -/

/-- C9: running DuplicateBurst with `repeat_count = 0` is the identity on
every (possibly empty) input sequence and every pivot index; the zero
count is a no-op, not an error. -/
theorem duplicate_burst_zero_identity {α : Type} (frames : List α)
    (pivotFrame : Int) :
    (build_bloom_sequence frames pivotFrame 0).1 = frames := by
  cases frames with
  | nil => rfl
  | cons a l =>
    have hr : sanitize_repeat_count 0 = 0 := rfl
    simp only [build_bloom_sequence, hr]
    cases hh : (List.drop (clamp_pivot_frame pivotFrame (a :: l).length) (a :: l)).head? <;>
      simp [List.take_append_drop]

/-- C4: DuplicateBurst over a non-empty materialized sequence produces
exactly `take p ++ replicate r (frames[p]) ++ drop p`, with the pivot
clamped into `[0, n-1]` (an out-of-range pivot clamps to the last valid
index, never raising) and the repeat count clamped to `≥ 0`. -/
theorem duplicate_burst_shape {α : Type} (frames : List α) (d : α)
    (pivotFrame rc : Int) (h : frames ≠ []) :
    (build_bloom_sequence frames pivotFrame rc).1
      = frames.take (clamp_pivot_frame pivotFrame frames.length)
        ++ List.replicate (sanitize_repeat_count rc)
             (frames.getD (clamp_pivot_frame pivotFrame frames.length) d)
        ++ frames.drop (clamp_pivot_frame pivotFrame frames.length)
    ∧ clamp_pivot_frame pivotFrame frames.length < frames.length
    ∧ (pivotFrame < 0 → clamp_pivot_frame pivotFrame frames.length = 0)
    ∧ ((frames.length : Int) ≤ pivotFrame →
        clamp_pivot_frame pivotFrame frames.length = frames.length - 1)
    ∧ (0 ≤ pivotFrame → pivotFrame < (frames.length : Int) →
        (clamp_pivot_frame pivotFrame frames.length : Int) = pivotFrame)
    ∧ (0 ≤ rc → (sanitize_repeat_count rc : Int) = rc)
    ∧ (rc < 0 → sanitize_repeat_count rc = 0) := by
  have hn : frames.length ≠ 0 := by
    cases frames with
    | nil => exact absurd rfl h
    | cons a l => simp
  have hp : clamp_pivot_frame pivotFrame frames.length < frames.length :=
    clamp_pivot_frame_lt _ _ hn
  refine ⟨?_, hp, ?_, ?_, ?_, ?_, ?_⟩
  · cases frames with
    | nil => exact absurd rfl h
    | cons a l =>
      simp only [build_bloom_sequence]
      rw [List.head?_drop, List.getElem?_eq_getElem hp,
        List.getD_eq_getElem?_getD, List.getElem?_eq_getElem hp]
      simp
  · intro hneg
    simp only [clamp_pivot_frame]
    split_ifs <;> omega
  · intro hbig
    simp only [clamp_pivot_frame]
    split_ifs <;> omega
  · intro h0 hlt
    simp only [clamp_pivot_frame]
    split_ifs <;> omega
  · intro h0
    simp only [sanitize_repeat_count]
    omega
  · intro hneg
    simp only [sanitize_repeat_count]
    omega

/-- C4 witness: a pivot of 99 on a 3-element input clamps to index 2 and
yields `prefix ++ burst ++ suffix`. -/
theorem duplicate_burst_shape_witness :
    ([10, 20, 30] : List Int) ≠ []
    ∧ ((build_bloom_sequence ([10, 20, 30] : List Int) 99 2).1
        = ([10, 20, 30] : List Int).take (clamp_pivot_frame 99 3)
          ++ List.replicate (sanitize_repeat_count 2)
               (([10, 20, 30] : List Int).getD (clamp_pivot_frame 99 3) 0)
          ++ ([10, 20, 30] : List Int).drop (clamp_pivot_frame 99 3)
        ∧ clamp_pivot_frame 99 3 < 3
        ∧ ((99 : Int) < 0 → clamp_pivot_frame 99 3 = 0)
        ∧ (((3 : Nat) : Int) ≤ 99 → clamp_pivot_frame 99 3 = 3 - 1)
        ∧ ((0 : Int) ≤ 99 → (99 : Int) < ((3 : Nat) : Int) →
            (clamp_pivot_frame 99 3 : Int) = 99)
        ∧ ((0 : Int) ≤ 2 → (sanitize_repeat_count 2 : Int) = 2)
        ∧ ((2 : Int) < 0 → sanitize_repeat_count 2 = 0)) :=
  ⟨by decide, duplicate_burst_shape ([10, 20, 30] : List Int) 0 99 2 (by decide)⟩

/-- C3 counterexample: the batch rebaser of `_mux_video_chunks` stamps
from base 0, not from the first retained packet's original timestamp
(here 100), so it disagrees with the spec's rebaser at this input. -/
theorem batch_rebase_base_time_cex :
    mux_video_chunks 5 [⟨[1], 1, some 100, some 100⟩]
      ≠ mux_video_chunks_spec 5 [⟨[1], 1, some 100, some 100⟩] := by
  decide

theorem mux_video_chunks_from_getElem? (ft : Int) :
    ∀ (chunks : List FrameChunk) (j i : Nat) (c : FrameChunk),
      chunks[i]? = some c →
      (mux_video_chunks_from ft j chunks)[i]?
        = some ⟨c.payload, ((j + i : Nat) : Int) * ft,
            ((j + i : Nat) : Int) * ft, ft⟩ := by
  intro chunks
  induction chunks with
  | nil => intro j i c hc; simp at hc
  | cons a rest ih =>
    intro j i c hc
    cases i with
    | zero =>
      simp only [List.getElem?_cons_zero, Option.some.injEq] at hc
      subst hc
      simp [mux_video_chunks_from]
    | succ i =>
      simp only [List.getElem?_cons_succ] at hc
      have hrec := ih (j + 1) i c hc
      have hx : j + 1 + i = j + (i + 1) := by omega
      simp only [mux_video_chunks_from, List.getElem?_cons_succ]
      rw [hrec, hx]

/-- C3 amended: the batch Timestamp Rebaser assigns to the i-th output
packet `pts = dts = i * ticks_per_frame` (base time always 0) and
`duration = ticks_per_frame`, with `ticks_per_frame` clamped to `≥ 1`. -/
theorem batch_rebase_indexed_stamps (ticks : Int) (chunks : List FrameChunk)
    (i : Nat) (c : FrameChunk) (h : chunks[i]? = some c) :
    (mux_video_chunks ticks chunks)[i]?
      = some ⟨c.payload, (i : Int) * max 1 ticks,
          (i : Int) * max 1 ticks, max 1 ticks⟩ := by
  have := mux_video_chunks_from_getElem? (max 1 ticks) chunks 0 i c h
  simpa [mux_video_chunks] using this

/-- C3 amended witness: the second of two chunks is stamped at
`1 * ticks` even though its own timestamp was 700. -/
theorem batch_rebase_indexed_stamps_witness :
    ([(⟨[1], 1, some 100, some 100⟩ : FrameChunk),
      ⟨[2], 1, some 700, some 700⟩][1]? = some ⟨[2], 1, some 700, some 700⟩)
    ∧ (mux_video_chunks 5
        [⟨[1], 1, some 100, some 100⟩, ⟨[2], 1, some 700, some 700⟩])[1]?
      = some ⟨[2], (1 : Int) * max 1 5, (1 : Int) * max 1 5, max 1 5⟩ :=
  ⟨by decide,
    batch_rebase_indexed_stamps 5
      [⟨[1], 1, some 100, some 100⟩, ⟨[2], 1, some 700, some 700⟩]
      1 ⟨[2], 1, some 700, some 700⟩ (by decide)⟩

theorem packet_surgery_aux_find?_kf (tb ws we : ℚ) (pc : Int)
    (pkts : List Packet) :
    ∀ pending : Int,
      (packet_surgery_aux tb ws we pc true pending pkts).find?
          (fun p => p.isKeyframe)
        = pkts.find? (fun p => p.isKeyframe) := by
  induction pkts with
  | nil => intro pending; rfl
  | cons p rest ih =>
    intro pending
    by_cases hk : p.isKeyframe = true
    · simp only [packet_surgery_aux, hk, if_true]
      rw [List.find?_cons_of_pos _ hk, List.find?_cons_of_pos _ hk]
    · rw [List.find?_cons_of_neg _ (by simp [hk])]
      by_cases hp : (0 : Int) < pending
      · simp only [packet_surgery_aux, hk, Bool.false_eq_true, if_false, hp,
          if_true]
        exact ih _
      · simp only [packet_surgery_aux, hk, Bool.false_eq_true, if_false, hp]
        rw [List.find?_cons_of_neg _ (by simp [hk])]
        exact ih _

theorem packet_surgery_all_aux_find?_kf (draws : Nat → Int) (mode : DropMode)
    (pkts : List Packet) :
    ∀ (pending b : Int) (di : Nat),
      (packet_surgery_all_aux draws mode true pending b di pkts).find?
          (fun p => p.isKeyframe)
        = pkts.find? (fun p => p.isKeyframe) := by
  induction pkts with
  | nil => intro pending b di; rfl
  | cons p rest ih =>
    intro pending b di
    by_cases hk : p.isKeyframe = true
    · simp only [packet_surgery_all_aux, hk, if_true]
      rw [List.find?_cons_of_pos _ hk, List.find?_cons_of_pos _ hk]
    · rw [List.find?_cons_of_neg _ (by simp [hk])]
      by_cases hp : (0 : Int) < pending
      · simp only [packet_surgery_all_aux, hk, Bool.false_eq_true, if_false,
          hp, if_true]
        exact ih _ _ _
      · simp only [packet_surgery_all_aux, hk, Bool.false_eq_true, if_false,
          hp]
        rw [List.find?_cons_of_neg _ (by simp [hk])]
        exact ih _ _ _

/-- C1: for every run of the DropWindow/PostcutBurst-style surgeries
(`packet_surgery` of mosh.py with any window bounds and postcut count,
and `_packet_surgery` of avidemux_style_all.py in either drop mode with
any postcut draws), the first SYNC packet of the output equals the first
SYNC packet of the input, and when the input has a first SYNC packet it
is emitted into the output. -/
theorem first_sync_preserved (tb ws we : ℚ) (pc : Int) (draws : Nat → Int)
    (mode : DropMode) (pkts : List Packet) :
    ((packet_surgery tb ws we pc pkts).find? (fun p => p.isKeyframe)
        = pkts.find? (fun p => p.isKeyframe))
    ∧ ((packet_surgery_all draws mode pkts).find? (fun p => p.isKeyframe)
        = pkts.find? (fun p => p.isKeyframe))
    ∧ (∀ q, pkts.find? (fun p => p.isKeyframe) = some q →
        q ∈ packet_surgery tb ws we pc pkts
        ∧ q ∈ packet_surgery_all draws mode pkts) := by
  have h1 := packet_surgery_aux_find?_kf tb ws we pc pkts 0
  have h2 := packet_surgery_all_aux_find?_kf draws mode pkts 0 (10 ^ 9) 0
  refine ⟨h1, h2, ?_⟩
  intro q hq
  constructor
  · exact List.mem_of_find?_eq_some (by rw [packet_surgery, h1, hq])
  · exact List.mem_of_find?_eq_some (by rw [packet_surgery_all, h2, hq])

/-- C1 witness: on a concrete stream whose first SYNC sits at index 1
inside the drop window, both surgeries still emit it first. -/
theorem first_sync_preserved_witness :
    ([⟨[1], some 0, some 0, false⟩, ⟨[2], some 1, some 1, true⟩,
        ⟨[3], some 2, some 2, true⟩] : List Packet).find?
        (fun p => p.isKeyframe) = some ⟨[2], some 1, some 1, true⟩
    ∧ (⟨[2], some 1, some 1, true⟩ : Packet)
        ∈ packet_surgery 1 0 10 2
          [⟨[1], some 0, some 0, false⟩, ⟨[2], some 1, some 1, true⟩,
            ⟨[3], some 2, some 2, true⟩]
    ∧ (⟨[2], some 1, some 1, true⟩ : Packet)
        ∈ packet_surgery_all (fun _ => 2) .allAfterFirst
          [⟨[1], some 0, some 0, false⟩, ⟨[2], some 1, some 1, true⟩,
            ⟨[3], some 2, some 2, true⟩] := by
  refine ⟨by decide, ?_⟩
  exact (first_sync_preserved 1 0 10 2 (fun _ => 2) .allAfterFirst
    [⟨[1], some 0, some 0, false⟩, ⟨[2], some 1, some 1, true⟩,
      ⟨[3], some 2, some 2, true⟩]).2.2 _ (by decide)

theorem packet_surgery_aux_drain (tb ws we : ℚ) (pc : Int)
    (ds : List Packet) :
    ∀ (pending : Int) (l : List Packet),
      (∀ q ∈ ds, q.isKeyframe = false) →
      (ds.length : Int) = pending →
      packet_surgery_aux tb ws we pc false pending (ds ++ l)
        = packet_surgery_aux tb ws we pc false 0 l := by
  induction ds with
  | nil =>
    intro pending l _ hlen
    have : pending = 0 := by simpa using hlen.symm
    subst this
    rfl
  | cons q ds ih =>
    intro pending l hds hlen
    have hq : q.isKeyframe = false := hds q (List.mem_cons_self q ds)
    have hp : (0 : Int) < pending := by
      simp only [List.length_cons] at hlen
      omega
    simp only [List.cons_append, packet_surgery_aux, hq, Bool.false_eq_true,
      if_false, hp, if_true]
    exact ih (pending - 1) l (fun r hr => hds r (List.mem_cons_of_mem q hr))
      (by simp only [List.length_cons] at hlen; omega)

/-- The demux loop of `process` in avidemux_style.py (lines 162-193):
every keyframe after the first is dropped and arms `pending_drop = pc`;
a non-keyframe arriving while `pending_drop > 0` is normally dropped
with the counter decremented, except that when `pframe_dup_start_pts`
(`thr`) is set and `pkt.pts < thr` the packet is kept and the counter
left untouched.  The result is `none` where the Python loop would raise
(`pkt.pts` is `None` compared against a set threshold while packets are
being suppressed). -/
def avidemux_process_aux (pc : Int) (thr : Option Int)
    (keepFirstI : Bool) (pending : Int) :
    List Packet → Option (List Packet)
  | [] => some []
  | p :: rest =>
    if p.isKeyframe then
      if keepFirstI then
        (avidemux_process_aux pc thr false pending rest).map
          (fun l => p :: l)
      else
        avidemux_process_aux pc thr keepFirstI pc rest
    else
      if 0 < pending then
        match thr with
        | some th =>
          match p.pts with
          | some v =>
            if v < th then
              (avidemux_process_aux pc thr keepFirstI pending rest).map
                (fun l => p :: l)
            else
              avidemux_process_aux pc thr keepFirstI (pending - 1) rest
          | none => none
        | none =>
          avidemux_process_aux pc thr keepFirstI (pending - 1) rest
      else
        (avidemux_process_aux pc thr keepFirstI pending rest).map
          (fun l => p :: l)

/-- The packet surgery of avidemux_style.py `process`:
`pc = max(0, int(postcut))`; `thr` models `pframe_dup_start_pts`
(`none` when `pframe_dup_start` is `None`, its default). -/
def avidemux_process_surgery (postcut : Int) (thr : Option Int)
    (pkts : List Packet) : Option (List Packet) :=
  avidemux_process_aux (max 0 postcut) thr true 0 pkts

theorem avidemux_process_aux_drain (pc : Int) (ds : List Packet) :
    ∀ (pending : Int) (l : List Packet),
      (∀ q ∈ ds, q.isKeyframe = false) →
      (ds.length : Int) = pending →
      avidemux_process_aux pc none false pending (ds ++ l)
        = avidemux_process_aux pc none false 0 l := by
  induction ds with
  | nil =>
    intro pending l _ hlen
    have : pending = 0 := by simpa using hlen.symm
    subst this
    rfl
  | cons q ds ih =>
    intro pending l hds hlen
    have hq : q.isKeyframe = false := hds q (List.mem_cons_self q ds)
    have hp : (0 : Int) < pending := by
      simp only [List.length_cons] at hlen
      omega
    simp only [List.cons_append, avidemux_process_aux, hq,
      Bool.false_eq_true, if_false, hp, if_true]
    exact ih (pending - 1) l (fun r hr => hds r (List.mem_cons_of_mem q hr))
      (by simp only [List.length_cons] at hlen; omega)

/-- C5 counterexample: in avidemux_style.py `process` with
`pframe_dup_start` set, the DELTA packet immediately following the
dropped SYNC — arriving while `pending_drop = 2 > 0` but with
`pts = 20` before the threshold 100 — is emitted, not dropped, and the
counter is not decremented; the claim says it must be absent from the
output. -/
theorem postcut_burst_drops_cex :
    avidemux_process_surgery 2 (some 100)
      [⟨[1], some 0, some 0, true⟩, ⟨[2], some 10, some 10, true⟩,
        ⟨[3], some 20, some 20, false⟩]
      = some [⟨[1], some 0, some 0, true⟩,
          ⟨[3], some 20, some 20, false⟩] := by
  decide

/-- C5 amended: dropping a SYNC packet with PostcutBurst armed sets
`pending_drop = postcut`, and while the counter is positive each
following DELTA packet is dropped with the counter decremented, after
which emission resumes — unconditionally in mosh.py's `packet_surgery`
(first conjunct) and in avidemux_style.py's `process` when
`pframe_dup_start` is unset, its default (second conjunct); when
`pframe_dup_start` is set, a DELTA packet whose pts lies before the
threshold is emitted with the counter left undecremented even while
`pending_drop > 0` (third conjunct). -/
theorem postcut_burst_drops_amended (tb ws we : ℚ) (pc pending th : Int)
    (s d : Packet) (ds rest : List Packet)
    (hs : s.isKeyframe = true)
    (hw : ws ≤ mosh_pkt_time tb s ∧ mosh_pkt_time tb s ≤ we)
    (hds : ∀ q ∈ ds, q.isKeyframe = false)
    (hd : d.isKeyframe = false)
    (hlen : (ds.length : Int) = pc) :
    (packet_surgery_aux tb ws we pc false pending (s :: (ds ++ d :: rest))
        = d :: packet_surgery_aux tb ws we pc false 0 rest)
    ∧ (avidemux_process_aux pc none false pending (s :: (ds ++ d :: rest))
        = (avidemux_process_aux pc none false 0 rest).map (fun l => d :: l))
    ∧ (∀ v : Int, d.pts = some v → v < th → 0 < pending →
        avidemux_process_aux pc (some th) false pending (d :: rest)
          = (avidemux_process_aux pc (some th) false pending rest).map
              (fun l => d :: l)) := by
  refine ⟨?_, ?_, ?_⟩
  · simp only [packet_surgery_aux, hs, if_true, Bool.false_eq_true, if_false,
      if_pos hw]
    rw [packet_surgery_aux_drain tb ws we pc ds pc (d :: rest) hds hlen]
    simp only [packet_surgery_aux, hd, Bool.false_eq_true, if_false,
      lt_irrefl]
  · simp only [avidemux_process_aux, hs, if_true, Bool.false_eq_true,
      if_false]
    rw [avidemux_process_aux_drain pc ds pc (d :: rest) hds hlen]
    simp only [avidemux_process_aux, hd, Bool.false_eq_true, if_false,
      lt_irrefl]
  · intro v hv hvth hp
    simp only [avidemux_process_aux, hd, Bool.false_eq_true, if_false, hp,
      if_true, hv, if_pos hvth]

/-- C5 amended witness: with `postcut = 2` and no threshold, both loops
drop exactly the two DELTA packets after the dropped SYNC and emit the
third; with threshold 100 set, a DELTA at pts 6 arriving under
`pending_drop = 2` is emitted with the counter untouched. -/
theorem postcut_burst_drops_amended_witness :
    (packet_surgery_aux 1 0 10 2 false 0
        (⟨[9], some 5, some 5, true⟩
          :: ([⟨[1], some 6, some 6, false⟩, ⟨[2], some 7, some 7, false⟩]
              ++ ⟨[3], some 8, some 8, false⟩ :: []))
      = ⟨[3], some 8, some 8, false⟩
          :: packet_surgery_aux 1 0 10 2 false 0 [])
    ∧ (avidemux_process_aux 2 none false 0
        (⟨[9], some 5, some 5, true⟩
          :: ([⟨[1], some 6, some 6, false⟩, ⟨[2], some 7, some 7, false⟩]
              ++ ⟨[3], some 8, some 8, false⟩ :: []))
      = (avidemux_process_aux 2 none false 0 []).map
          (fun l => ⟨[3], some 8, some 8, false⟩ :: l))
    ∧ (avidemux_process_aux 2 (some 100) false 2
        (⟨[1], some 6, some 6, false⟩ :: [])
      = (avidemux_process_aux 2 (some 100) false 2 []).map
          (fun l => ⟨[1], some 6, some 6, false⟩ :: l)) := by
  have h := postcut_burst_drops_amended 1 0 10 2 0 100
    ⟨[9], some 5, some 5, true⟩ ⟨[3], some 8, some 8, false⟩
    [⟨[1], some 6, some 6, false⟩, ⟨[2], some 7, some 7, false⟩] []
    rfl (by constructor <;> norm_num [mosh_pkt_time])
    (by intro q hq; fin_cases hq <;> rfl) rfl (by decide)
  have h3 := postcut_burst_drops_amended 1 0 10 2 2 100
    ⟨[9], some 5, some 5, true⟩ ⟨[1], some 6, some 6, false⟩
    [⟨[4], some 6, some 6, false⟩, ⟨[5], some 7, some 7, false⟩] []
    rfl (by constructor <;> norm_num [mosh_pkt_time])
    (by intro q hq; fin_cases hq <;> rfl) rfl (by decide)
  exact ⟨h.1, h.2.1, h3.2.2 6 rfl (by decide) (by decide)⟩

/-- C7 counterexample: on three SYNC packets with a claimed
`clip_count = 2`, the spec's `boundaries_remaining = clip_count - 1`
rule preserves the third SYNC packet, but the code (which initializes
the counter to `10^9`) drops it. -/
theorem boundaries_only_counter_cex :
    packet_surgery_all (fun _ => 0) .boundariesOnly
      [⟨[1], some 0, some 0, true⟩, ⟨[2], some 1, some 1, true⟩,
        ⟨[3], some 2, some 2, true⟩]
    ≠ packet_surgery_boundaries_spec 2 0
      [⟨[1], some 0, some 0, true⟩, ⟨[2], some 1, some 1, true⟩,
        ⟨[3], some 2, some 2, true⟩] := by
  decide

theorem boundaries_only_aux_filter_nil (draws : Nat → Int)
    (rest : List Packet) :
    ∀ (pending b : Int) (di : Nat),
      ((rest.countP (fun p => p.isKeyframe) : Int)) ≤ b →
      (packet_surgery_all_aux draws .boundariesOnly false pending b di
          rest).filter (fun p => p.isKeyframe) = [] := by
  induction rest with
  | nil => intro pending b di _; rfl
  | cons p rest ih =>
    intro pending b di hb
    by_cases hk : p.isKeyframe = true
    · have hc : (p :: rest).countP (fun p => p.isKeyframe)
          = rest.countP (fun p => p.isKeyframe) + 1 :=
        List.countP_cons_of_pos _ _ hk
      have hb0 : (0 : Int) < b := by rw [hc] at hb; push_cast at hb; omega
      simp only [packet_surgery_all_aux, hk, if_true, Bool.false_eq_true,
        if_false, hb0]
      exact ih _ _ _ (by rw [hc] at hb; push_cast at hb ⊢; omega)
    · have hc : (p :: rest).countP (fun p => p.isKeyframe)
          = rest.countP (fun p => p.isKeyframe) :=
        List.countP_cons_of_neg _ _ (by simp [hk])
      rw [hc] at hb
      by_cases hp : (0 : Int) < pending
      · simp only [packet_surgery_all_aux, hk, Bool.false_eq_true, if_false,
          hp, if_true]
        exact ih _ _ _ hb
      · simp only [packet_surgery_all_aux, hk, Bool.false_eq_true, if_false,
          hp]
        rw [List.filter_cons_of_neg (by simp [hk])]
        exact ih _ _ _ hb

theorem boundaries_only_aux_filter (draws : Nat → Int) (pkts : List Packet) :
    ∀ (pending : Int) (di : Nat),
      pkts.countP (fun p => p.isKeyframe) ≤ 10 ^ 9 →
      (packet_surgery_all_aux draws .boundariesOnly true pending (10 ^ 9) di
          pkts).filter (fun p => p.isKeyframe)
        = (pkts.filter (fun p => p.isKeyframe)).take 1 := by
  induction pkts with
  | nil => intro pending di _; rfl
  | cons p rest ih =>
    intro pending di h
    by_cases hk : p.isKeyframe = true
    · have hc : (p :: rest).countP (fun p => p.isKeyframe)
          = rest.countP (fun p => p.isKeyframe) + 1 :=
        List.countP_cons_of_pos _ _ hk
      simp only [packet_surgery_all_aux, hk, if_true]
      rw [List.filter_cons_of_pos hk, List.filter_cons_of_pos hk]
      rw [boundaries_only_aux_filter_nil draws rest pending (10 ^ 9) di
        (by rw [hc] at h; push_cast; omega)]
      simp
    · have hc : (p :: rest).countP (fun p => p.isKeyframe)
          = rest.countP (fun p => p.isKeyframe) :=
        List.countP_cons_of_neg _ _ (by simp [hk])
      rw [hc] at h
      by_cases hp : (0 : Int) < pending
      · simp only [packet_surgery_all_aux, hk, Bool.false_eq_true, if_false,
          hp, if_true]
        rw [List.filter_cons_of_neg (by simp [hk])]
        exact ih _ _ h
      · simp only [packet_surgery_all_aux, hk, Bool.false_eq_true, if_false,
          hp]
        rw [List.filter_cons_of_neg (by simp [hk]),
          List.filter_cons_of_neg (by simp [hk])]
        exact ih _ _ h

/-- C7 amended: in `boundaries_only` mode the counter is initialized to
`10^9` (not `clip_count - 1`), so on any input with at most `10^9` SYNC
packets every SYNC packet after the global first is dropped: the SYNC
packets of the output are exactly the first SYNC packet of the input. -/
theorem boundaries_only_drops_all_interior (draws : Nat → Int)
    (pkts : List Packet)
    (h : pkts.countP (fun p => p.isKeyframe) ≤ 10 ^ 9) :
    (packet_surgery_all draws .boundariesOnly pkts).filter
        (fun p => p.isKeyframe)
      = (pkts.filter (fun p => p.isKeyframe)).take 1 :=
  boundaries_only_aux_filter draws pkts 0 0 h

/-- C7 amended witness: three SYNC packets in, exactly the first one out. -/
theorem boundaries_only_drops_all_interior_witness :
    ([⟨[1], some 0, some 0, true⟩, ⟨[2], some 1, some 1, true⟩,
        ⟨[3], some 2, some 2, true⟩] : List Packet).countP
        (fun p => p.isKeyframe) ≤ 10 ^ 9
    ∧ (packet_surgery_all (fun _ => 0) .boundariesOnly
        [⟨[1], some 0, some 0, true⟩, ⟨[2], some 1, some 1, true⟩,
          ⟨[3], some 2, some 2, true⟩]).filter (fun p => p.isKeyframe)
      = (([⟨[1], some 0, some 0, true⟩, ⟨[2], some 1, some 1, true⟩,
          ⟨[3], some 2, some 2, true⟩] : List Packet).filter
          (fun p => p.isKeyframe)).take 1 :=
  ⟨by decide,
    boundaries_only_drops_all_interior (fun _ => 0)
      [⟨[1], some 0, some 0, true⟩, ⟨[2], some 1, some 1, true⟩,
        ⟨[3], some 2, some 2, true⟩] (by decide)⟩

theorem classic_step_skip (tb : ℚ) (ft : Int) (ds de da : Option ℚ)
    (dc : Int) (s : ClassicState) (p : Packet)
    (h : has_timestamp p = false) :
    classic_step tb ft ds de da dc s p = (s, []) := by
  have h1 : p.dts = none ∧ p.pts = none := by
    rcases hdts : p.dts with _ | v
    · rcases hpts : p.pts with _ | w
      · exact ⟨rfl, rfl⟩
      · simp [has_timestamp, hdts, hpts] at h
    · simp [has_timestamp, hdts] at h
  simp [classic_step, h1]

theorem classic_loop_filter_ts (tb : ℚ) (ft : Int) (ds de da : Option ℚ)
    (dc : Int) (pkts : List Packet) :
    ∀ s : ClassicState,
      classic_loop tb ft ds de da dc s pkts
        = classic_loop tb ft ds de da dc s (pkts.filter has_timestamp) := by
  induction pkts with
  | nil => intro s; rfl
  | cons p rest ih =>
    intro s
    by_cases h : has_timestamp p = true
    · rw [List.filter_cons_of_pos h]
      simp only [classic_loop]
      rw [ih]
    · rw [List.filter_cons_of_neg (by simpa using h)]
      simp only [classic_loop]
      rw [classic_step_skip tb ft ds de da dc s p (by simpa using h)]
      simpa using ih s

theorem collect_filter_eq (pkts : List Packet) :
    collect_video_frame_chunks pkts
      = collect_video_frame_chunks (pkts.filter chunk_source_ok) := by
  induction pkts with
  | nil => rfl
  | cons p rest ih =>
    by_cases h1 : p.dts = none ∧ p.pts = none
    · have hok : chunk_source_ok p = false := by
        simp [chunk_source_ok, has_timestamp, h1.1, h1.2]
      rw [List.filter_cons_of_neg (by simp [hok])]
      simp only [collect_video_frame_chunks] at ih ⊢
      rw [List.filterMap_cons_none (by simp [h1]), ih]
    · by_cases h2 : p.payload = []
      · have hok : chunk_source_ok p = false := by
          simp [chunk_source_ok, h2]
        rw [List.filter_cons_of_neg (by simp [hok])]
        simp only [collect_video_frame_chunks] at ih ⊢
        rw [List.filterMap_cons_none (by simp [h1, h2]), ih]
      · have hok : chunk_source_ok p = true := by
          rcases hdts : p.dts with _ | v
          · rcases hpts : p.pts with _ | w
            · exact absurd ⟨hdts, hpts⟩ h1
            · simp [chunk_source_ok, has_timestamp, hdts, hpts, h2]
          · simp [chunk_source_ok, has_timestamp, hdts, h2]
        rw [List.filter_cons_of_pos hok]
        simp only [collect_video_frame_chunks] at ih ⊢
        simp only [List.filterMap_cons, h1, h2, if_false, ite_false]
        rw [ih]

/-- C8 counterexample: a packet with a zero-length payload but a valid
timestamp is not skipped by the classic pipeline — it is classified and
emitted, so the run's output on it alone is non-empty. -/
theorem malformed_packet_classic_cex :
    remove_iframes_and_duplicate_pframes 1 1 none none none 0
      [⟨[], some 0, some 0, true⟩] ≠ [] := by
  decide

/-- C8 amended: packets with neither timestamp set are skipped by both
paths (pre-filtering them changes nothing); zero-length-payload packets
are additionally skipped only by the bloom collection path
(`_collect_video_frame_chunks`), while the classic path processes
them. -/
theorem malformed_packet_skip_paths (tb : ℚ) (ft : Int) (ds de da : Option ℚ)
    (dc : Int) (pkts : List Packet) :
    collect_video_frame_chunks pkts
      = collect_video_frame_chunks (pkts.filter chunk_source_ok)
    ∧ remove_iframes_and_duplicate_pframes tb ft ds de da dc pkts
      = remove_iframes_and_duplicate_pframes tb ft ds de da dc
          (pkts.filter has_timestamp) :=
  ⟨collect_filter_eq pkts, classic_loop_filter_ts tb ft ds de da dc pkts _⟩

theorem spd_cons_cons (a b : Int) (l : List Int) :
    successive_pos_deltas (a :: b :: l)
      = (if 0 < b - a then [b - a] else [])
        ++ successive_pos_deltas (b :: l) := by
  by_cases hd : 0 < b - a
  · have hd' : a < b := by omega
    simp [successive_pos_deltas, hd, hd']
  · have hd' : ¬ a < b := by omega
    simp [successive_pos_deltas, hd, hd']

theorem spd_pos (l : List Int) : ∀ x ∈ successive_pos_deltas l, 0 < x := by
  intro x hx
  simp only [successive_pos_deltas, List.mem_filterMap] at hx
  obtain ⟨q, _, hq⟩ := hx
  by_cases hd : 0 < q.2 - q.1
  · simp only [hd, if_true, Option.some.injEq] at hq
    omega
  · simp [hd] at hq

theorem cdc_dts_spd (d : Int) (hd : 0 < d) :
    ∀ (n : Nat) (start : Int),
      successive_pos_deltas
        ((const_delta_chunks start d (n + 2)).filterMap (fun c => c.dts))
      = List.replicate (n + 1) d := by
  intro n
  induction n with
  | zero =>
    intro start
    simp [const_delta_chunks, successive_pos_deltas, hd]
  | succ n ih =>
    intro start
    have hg : (const_delta_chunks start d (n + 3)).filterMap (fun c => c.dts)
        = start :: (start + d)
            :: (const_delta_chunks (start + d + d) d (n + 1)).filterMap
                (fun c => c.dts) := rfl
    have hh : (const_delta_chunks (start + d) d (n + 2)).filterMap
          (fun c => c.dts)
        = (start + d)
            :: (const_delta_chunks (start + d + d) d (n + 1)).filterMap
                (fun c => c.dts) := rfl
    rw [show n + 1 + 2 = n + 3 from rfl, hg, spd_cons_cons, ← hh, ih]
    have hdd : 0 < start + d - start := by omega
    rw [if_pos hdd]
    simp [List.replicate_succ]

theorem min?_replicate_succ (k : Nat) (d : Int) :
    (List.replicate (k + 1) d).min? = some d := by
  induction k with
  | zero => rfl
  | succ k ih =>
    rw [List.replicate_succ, List.min?_cons, ih]
    simp

/-- C6: frame-interval estimation returns the minimum positive
successive decode-time delta, falls back to presentation-time deltas
when decode time yields none, falls back to the rounded
`(1/frame_rate)/time_base` (clamped to 1 tick) when no positive delta
exists, and on a constant-delta sequence returns exactly that delta. -/
theorem frame_interval_estimation_spec (chunks : List FrameChunk) (tb : ℚ)
    (fps : Option ℚ) (n : Nat) (start d : Int) :
    (∀ m, (successive_pos_deltas (chunks.filterMap (fun c => c.dts))).min?
        = some m → estimate_packet_ticks chunks tb fps = m)
    ∧ (successive_pos_deltas (chunks.filterMap (fun c => c.dts)) = [] →
       ∀ m, (successive_pos_deltas (chunks.filterMap (fun c => c.pts))).min?
          = some m → estimate_packet_ticks chunks tb fps = m)
    ∧ (successive_pos_deltas (chunks.filterMap (fun c => c.dts)) = [] →
       successive_pos_deltas (chunks.filterMap (fun c => c.pts)) = [] →
       estimate_packet_ticks chunks tb fps = fallback_ticks tb fps)
    ∧ (0 < d →
       estimate_packet_ticks (const_delta_chunks start d (n + 2)) tb fps
         = d) := by
  refine ⟨?_, ?_, ?_, ?_⟩
  · intro m hm
    have hne : successive_pos_deltas (chunks.filterMap (fun c => c.dts))
        ≠ [] := by
      intro h0
      rw [h0] at hm
      simp at hm
    have hmem : m ∈ successive_pos_deltas (chunks.filterMap (fun c => c.dts)) :=
      List.min?_mem (fun {a b} => min_choice a b) hm
    have hpos : 0 < m := spd_pos _ m hmem
    simp only [estimate_packet_ticks]
    rw [if_neg hne, hm]
    exact max_eq_right (by omega)
  · intro hdts m hm
    have hmem : m ∈ successive_pos_deltas (chunks.filterMap (fun c => c.pts)) :=
      List.min?_mem (fun {a b} => min_choice a b) hm
    have hpos : 0 < m := spd_pos _ m hmem
    simp only [estimate_packet_ticks]
    rw [if_pos hdts, hm]
    exact max_eq_right (by omega)
  · intro hdts hpts
    simp only [estimate_packet_ticks]
    rw [if_pos hdts, hpts]
    rfl
  · intro hd
    have h1 := cdc_dts_spd d hd n start
    have hne : successive_pos_deltas
        ((const_delta_chunks start d (n + 2)).filterMap (fun c => c.dts))
        ≠ [] := by
      rw [h1]
      simp
    simp only [estimate_packet_ticks]
    rw [if_neg hne, h1, min?_replicate_succ]
    exact max_eq_right (by omega)

/-- C6 witness: deltas 7 and 3 give 3; a constant-delta-5 sequence
gives exactly 5. -/
theorem frame_interval_estimation_spec_witness :
    ((successive_pos_deltas
        (([⟨[1], 1, none, some 0⟩, ⟨[1], 1, none, some 7⟩,
           ⟨[1], 1, none, some 10⟩] : List FrameChunk).filterMap
          (fun c => c.dts))).min? = some 3
      ∧ estimate_packet_ticks
          [⟨[1], 1, none, some 0⟩, ⟨[1], 1, none, some 7⟩,
           ⟨[1], 1, none, some 10⟩] 1 none = 3)
    ∧ estimate_packet_ticks (const_delta_chunks 4 5 (1 + 2)) 1 none = 5 := by
  refine ⟨⟨by decide, ?_⟩, ?_⟩
  · exact (frame_interval_estimation_spec
      [⟨[1], 1, none, some 0⟩, ⟨[1], 1, none, some 7⟩,
        ⟨[1], 1, none, some 10⟩] 1 none 0 0 0).1 3 (by decide)
  · exact (frame_interval_estimation_spec [] 1 none 1 4 5).2.2.2 (by decide)

theorem dts_vals_cons (p : Packet) (l : List Packet) :
    dts_vals (p :: l) = p.dts.getD 0 :: dts_vals l := rfl

theorem dts_vals_append (l1 l2 : List Packet) :
    dts_vals (l1 ++ l2) = dts_vals l1 ++ dts_vals l2 :=
  List.map_append _ _ _

theorem dup_packets_length (ft : Int) (pl : List Nat) :
    ∀ (k : Nat) (c : Int × Int), (dup_packets ft pl k c).1.length = k := by
  intro k
  induction k with
  | zero => intro c; rfl
  | succ k ih => intro c; simp [dup_packets, ih]

theorem dup_packets_dts (ft : Int) (pl : List Nat) :
    ∀ (k : Nat) (c : Int × Int) (q : Packet),
      q ∈ (dup_packets ft pl k c).1 → q.dts ≠ none := by
  intro k
  induction k with
  | zero => intro c q hq; simp [dup_packets] at hq
  | succ k ih =>
    intro c q hq
    simp only [dup_packets, List.mem_cons] at hq
    rcases hq with h | h
    · subst h; simp
    · exact ih _ q h

theorem dup_chain_cont (ft : Int) (pl : List Nat) (hft : 1 ≤ ft) :
    ∀ (k : Nat) (c : Int × Int) (l : List Int),
      List.Chain (· < ·) (dup_packets ft pl k c).2.2 l →
      List.Chain (· < ·) c.2 (dts_vals (dup_packets ft pl k c).1 ++ l) := by
  intro k
  induction k with
  | zero =>
    intro c l h
    simpa [dup_packets, dts_vals] using h
  | succ k ih =>
    intro c l h
    simp only [dup_packets, dts_vals, List.map_cons, List.cons_append]
    refine List.Chain.cons ?_ ?_
    · show c.2 < (some (c.2 + ft) : Option Int).getD 0
      simp
      omega
    · exact ih (c.1 + ft, c.2 + ft) l h

theorem stamp_clock_some (ft : Int) (c : Int × Int) (p : Packet) :
    (stamp_and_mux ft (some c) p).1
      = (max (p.pts.getD (c.1 + ft)) (c.1 + ft),
         max (p.dts.getD (c.2 + ft)) (c.2 + ft)) := rfl

theorem stamp_dts_eq (ft : Int) (clock : Option (Int × Int)) (p : Packet) :
    (stamp_and_mux ft clock p).2.dts
      = some (stamp_and_mux ft clock p).1.2 := rfl

theorem stamp_dts_gt (ft : Int) (c : Int × Int) (p : Packet) (hft : 1 ≤ ft) :
    c.2 < (stamp_and_mux ft (some c) p).1.2 := by
  show c.2 < max (p.dts.getD (c.2 + ft)) (c.2 + ft)
  have h := le_max_right (p.dts.getD (c.2 + ft)) (c.2 + ft)
  omega

theorem classic_step_eq_skip (tb : ℚ) (ft : Int) (ds de da : Option ℚ)
    (dc : Int) (s : ClassicState) (p : Packet)
    (h0 : p.dts = none ∧ p.pts = none) :
    classic_step tb ft ds de da dc s p = (s, []) := by
  simp [classic_step, h0]

theorem classic_step_eq_first (tb : ℚ) (ft : Int) (ds de da : Option ℚ)
    (dc : Int) (s : ClassicState) (p : Packet)
    (h0 : ¬(p.dts = none ∧ p.pts = none))
    (hk : p.isKeyframe = true) (hfk : s.firstKeySeen = false) :
    classic_step tb ft ds de da dc s p
      = (⟨some (stamp_and_mux ft s.clock p).1, true, s.dupDone⟩,
         [(stamp_and_mux ft s.clock p).2]) := by
  simp [classic_step, h0, hk, hfk]

theorem classic_step_eq_drop (tb : ℚ) (ft : Int) (ds de da : Option ℚ)
    (dc : Int) (s : ClassicState) (p : Packet)
    (h0 : ¬(p.dts = none ∧ p.pts = none))
    (hk : p.isKeyframe = true) (hfk : s.firstKeySeen = true)
    (hw : in_drop_window ds de (((p.dts.getD 0 : Int) : ℚ) * tb) = true) :
    classic_step tb ft ds de da dc s p = (s, []) := by
  simp [classic_step, h0, hk, hfk, hw]

theorem classic_step_eq_burst (tb : ℚ) (ft : Int) (ds de da : Option ℚ)
    (dc : Int) (s : ClassicState) (p : Packet)
    (h0 : ¬(p.dts = none ∧ p.pts = none))
    (hk : p.isKeyframe = false) (hdd : s.dupDone = false)
    (hr : dup_ready da (((p.dts.getD 0 : Int) : ℚ) * tb) = true) :
    classic_step tb ft ds de da dc s p
      = (⟨some (dup_packets ft p.payload (min dc 20).toNat
              (stamp_and_mux ft s.clock p).1).2, s.firstKeySeen, true⟩,
         (stamp_and_mux ft s.clock p).2
           :: (dup_packets ft p.payload (min dc 20).toNat
                (stamp_and_mux ft s.clock p).1).1) := by
  simp [classic_step, h0, hk, hdd, hr]

theorem classic_step_eq_plain (tb : ℚ) (ft : Int) (ds de da : Option ℚ)
    (dc : Int) (s : ClassicState) (p : Packet)
    (h0 : ¬(p.dts = none ∧ p.pts = none))
    (hnk : ¬(p.isKeyframe = true ∧ s.firstKeySeen = false))
    (hnd : ¬(p.isKeyframe = true
        ∧ in_drop_window ds de (((p.dts.getD 0 : Int) : ℚ) * tb) = true))
    (hno : ¬(s.dupDone = false ∧ p.isKeyframe = false
        ∧ dup_ready da (((p.dts.getD 0 : Int) : ℚ) * tb) = true)) :
    classic_step tb ft ds de da dc s p
      = (⟨some (stamp_and_mux ft s.clock p).1, s.firstKeySeen, s.dupDone⟩,
         [(stamp_and_mux ft s.clock p).2]) := by
  simp only [classic_step, if_neg h0]
  rw [if_neg (by simpa using hnk), if_neg (by simpa using hnd),
    if_neg (by simpa using hno)]

theorem classic_loop_chain_some (tb : ℚ) (ft : Int) (ds de da : Option ℚ)
    (dc : Int) (hft : 1 ≤ ft) (pkts : List Packet) :
    ∀ (fk dd : Bool) (c : Int × Int),
      List.Chain (· < ·) c.2
        (dts_vals (classic_loop tb ft ds de da dc ⟨some c, fk, dd⟩ pkts))
      ∧ ∀ q ∈ classic_loop tb ft ds de da dc ⟨some c, fk, dd⟩ pkts,
          q.dts ≠ none := by
  induction pkts with
  | nil =>
    intro fk dd c
    exact ⟨List.Chain.nil, by simp [classic_loop]⟩
  | cons p rest ih =>
    intro fk dd c
    by_cases h0 : p.dts = none ∧ p.pts = none
    · have hstep := classic_step_eq_skip tb ft ds de da dc ⟨some c, fk, dd⟩ p h0
      simp only [classic_loop, hstep, List.nil_append]
      exact ih fk dd c
    · by_cases hk : p.isKeyframe = true
      · by_cases hfk : fk = false
        · have hstep := classic_step_eq_first tb ft ds de da dc
            ⟨some c, fk, dd⟩ p h0 hk hfk
          simp only [classic_loop, hstep, List.cons_append, List.nil_append]
          obtain ⟨hc, hm⟩ := ih true dd (stamp_and_mux ft (some c) p).1
          constructor
          · rw [dts_vals_cons, stamp_dts_eq, Option.getD_some]
            exact List.Chain.cons (stamp_dts_gt ft c p hft) hc
          · intro q hq
            rcases List.mem_cons.mp hq with h | h
            · subst h; rw [stamp_dts_eq]; simp
            · exact hm q h
        · have hfk' : fk = true := by
            cases fk
            · exact absurd rfl hfk
            · rfl
          by_cases hw : in_drop_window ds de (((p.dts.getD 0 : Int) : ℚ) * tb)
              = true
          · have hstep := classic_step_eq_drop tb ft ds de da dc
              ⟨some c, fk, dd⟩ p h0 hk hfk' hw
            simp only [classic_loop, hstep, List.nil_append]
            exact ih fk dd c
          · have hstep := classic_step_eq_plain tb ft ds de da dc
              ⟨some c, fk, dd⟩ p h0
              (by simp [hfk'])
              (by simp [hw])
              (by simp [hk])
            simp only [classic_loop, hstep, List.cons_append, List.nil_append]
            obtain ⟨hc, hm⟩ := ih fk dd (stamp_and_mux ft (some c) p).1
            constructor
            · rw [dts_vals_cons, stamp_dts_eq, Option.getD_some]
              exact List.Chain.cons (stamp_dts_gt ft c p hft) hc
            · intro q hq
              rcases List.mem_cons.mp hq with h | h
              · subst h; rw [stamp_dts_eq]; simp
              · exact hm q h
      · have hk' : p.isKeyframe = false := by
          cases hb : p.isKeyframe
          · rfl
          · exact absurd hb hk
        by_cases hfire : dd = false
            ∧ dup_ready da (((p.dts.getD 0 : Int) : ℚ) * tb) = true
        · have hstep := classic_step_eq_burst tb ft ds de da dc
            ⟨some c, fk, dd⟩ p h0 hk' hfire.1 hfire.2
          simp only [classic_loop, hstep, List.cons_append]
          obtain ⟨hc, hm⟩ := ih fk true
            (dup_packets ft p.payload (min dc 20).toNat
              (stamp_and_mux ft (some c) p).1).2
          constructor
          · rw [dts_vals_cons, stamp_dts_eq, Option.getD_some, dts_vals_append]
            refine List.Chain.cons (stamp_dts_gt ft c p hft) ?_
            exact dup_chain_cont ft p.payload hft (min dc 20).toNat
              (stamp_and_mux ft (some c) p).1 _ hc
          · intro q hq
            rcases List.mem_cons.mp hq with h | h
            · subst h; rw [stamp_dts_eq]; simp
            · rcases List.mem_append.mp h with h | h
              · exact dup_packets_dts ft p.payload _ _ q h
              · exact hm q h
        · have hstep := classic_step_eq_plain tb ft ds de da dc
            ⟨some c, fk, dd⟩ p h0
            (by simp [hk'])
            (by simp [hk'])
            (by
              intro hcon
              exact hfire ⟨hcon.1, hcon.2.2⟩)
          simp only [classic_loop, hstep, List.cons_append, List.nil_append]
          obtain ⟨hc, hm⟩ := ih fk dd (stamp_and_mux ft (some c) p).1
          constructor
          · rw [dts_vals_cons, stamp_dts_eq, Option.getD_some]
            exact List.Chain.cons (stamp_dts_gt ft c p hft) hc
          · intro q hq
            rcases List.mem_cons.mp hq with h | h
            · subst h; rw [stamp_dts_eq]; simp
            · exact hm q h

theorem classic_loop_chain_none (tb : ℚ) (ft : Int) (ds de da : Option ℚ)
    (dc : Int) (hft : 1 ≤ ft) (pkts : List Packet) :
    ∀ (fk dd : Bool),
      List.Chain' (· < ·)
        (dts_vals (classic_loop tb ft ds de da dc ⟨none, fk, dd⟩ pkts))
      ∧ ∀ q ∈ classic_loop tb ft ds de da dc ⟨none, fk, dd⟩ pkts,
          q.dts ≠ none := by
  induction pkts with
  | nil =>
    intro fk dd
    exact ⟨List.chain'_nil, by simp [classic_loop]⟩
  | cons p rest ih =>
    intro fk dd
    by_cases h0 : p.dts = none ∧ p.pts = none
    · have hstep := classic_step_eq_skip tb ft ds de da dc ⟨none, fk, dd⟩ p h0
      simp only [classic_loop, hstep, List.nil_append]
      exact ih fk dd
    · by_cases hk : p.isKeyframe = true
      · by_cases hfk : fk = false
        · have hstep := classic_step_eq_first tb ft ds de da dc
            ⟨none, fk, dd⟩ p h0 hk hfk
          simp only [classic_loop, hstep, List.cons_append, List.nil_append]
          obtain ⟨hc, hm⟩ := classic_loop_chain_some tb ft ds de da dc hft
            rest true dd (stamp_and_mux ft none p).1
          constructor
          · rw [dts_vals_cons, stamp_dts_eq, Option.getD_some]
            exact hc
          · intro q hq
            rcases List.mem_cons.mp hq with h | h
            · subst h; rw [stamp_dts_eq]; simp
            · exact hm q h
        · have hfk' : fk = true := by
            cases fk
            · exact absurd rfl hfk
            · rfl
          by_cases hw : in_drop_window ds de (((p.dts.getD 0 : Int) : ℚ) * tb)
              = true
          · have hstep := classic_step_eq_drop tb ft ds de da dc
              ⟨none, fk, dd⟩ p h0 hk hfk' hw
            simp only [classic_loop, hstep, List.nil_append]
            exact ih fk dd
          · have hstep := classic_step_eq_plain tb ft ds de da dc
              ⟨none, fk, dd⟩ p h0
              (by simp [hfk'])
              (by simp [hw])
              (by simp [hk])
            simp only [classic_loop, hstep, List.cons_append, List.nil_append]
            obtain ⟨hc, hm⟩ := classic_loop_chain_some tb ft ds de da dc hft
              rest fk dd (stamp_and_mux ft none p).1
            constructor
            · rw [dts_vals_cons, stamp_dts_eq, Option.getD_some]
              exact hc
            · intro q hq
              rcases List.mem_cons.mp hq with h | h
              · subst h; rw [stamp_dts_eq]; simp
              · exact hm q h
      · have hk' : p.isKeyframe = false := by
          cases hb : p.isKeyframe
          · rfl
          · exact absurd hb hk
        by_cases hfire : dd = false
            ∧ dup_ready da (((p.dts.getD 0 : Int) : ℚ) * tb) = true
        · have hstep := classic_step_eq_burst tb ft ds de da dc
            ⟨none, fk, dd⟩ p h0 hk' hfire.1 hfire.2
          simp only [classic_loop, hstep, List.cons_append]
          obtain ⟨hc, hm⟩ := classic_loop_chain_some tb ft ds de da dc hft
            rest fk true
            (dup_packets ft p.payload (min dc 20).toNat
              (stamp_and_mux ft none p).1).2
          constructor
          · rw [dts_vals_cons, stamp_dts_eq, Option.getD_some, dts_vals_append]
            exact dup_chain_cont ft p.payload hft (min dc 20).toNat
              (stamp_and_mux ft none p).1 _ hc
          · intro q hq
            rcases List.mem_cons.mp hq with h | h
            · subst h; rw [stamp_dts_eq]; simp
            · rcases List.mem_append.mp h with h | h
              · exact dup_packets_dts ft p.payload _ _ q h
              · exact hm q h
        · have hstep := classic_step_eq_plain tb ft ds de da dc
            ⟨none, fk, dd⟩ p h0
            (by simp [hk'])
            (by simp [hk'])
            (by
              intro hcon
              exact hfire ⟨hcon.1, hcon.2.2⟩)
          simp only [classic_loop, hstep, List.cons_append, List.nil_append]
          obtain ⟨hc, hm⟩ := classic_loop_chain_some tb ft ds de da dc hft
            rest fk dd (stamp_and_mux ft none p).1
          constructor
          · rw [dts_vals_cons, stamp_dts_eq, Option.getD_some]
            exact hc
          · intro q hq
            rcases List.mem_cons.mp hq with h | h
            · subst h; rw [stamp_dts_eq]; simp
            · exact hm q h

theorem mux_from_chain (ft : Int) (hft : 1 ≤ ft) (chunks : List FrameChunk) :
    ∀ (j : Nat) (x : Int), x < (j : Int) * ft →
      List.Chain (· < ·) x
        ((mux_video_chunks_from ft j chunks).map (fun m => m.dts)) := by
  induction chunks with
  | nil => intro j x _; exact List.Chain.nil
  | cons c rest ih =>
    intro j x hx
    simp only [mux_video_chunks_from, List.map_cons]
    refine List.Chain.cons hx ?_
    refine ih (j + 1) _ ?_
    have h1 : ((j + 1 : Nat) : Int) * ft = (j : Int) * ft + ft := by
      push_cast
      ring
    rw [h1]
    omega

theorem mux_chunks_chain (ticks : Int) (chunks : List FrameChunk) :
    List.Chain' (· < ·)
      ((mux_video_chunks ticks chunks).map (fun m => m.dts)) := by
  cases chunks with
  | nil => exact List.chain'_nil
  | cons c rest =>
    have hft : (1 : Int) ≤ max 1 ticks := le_max_left _ _
    show List.Chain (· < ·) (((0 : Nat) : Int) * max 1 ticks)
      ((mux_video_chunks_from (max 1 ticks) 1 rest).map (fun m => m.dts))
    refine mux_from_chain (max 1 ticks) hft rest 1 _ ?_
    simp only [Nat.cast_zero, Nat.cast_one, zero_mul, one_mul]
    omega

/-- C2: every output of the Timestamp Rebaser has strictly increasing
decode times between adjacent packets — both the batch mode
(`_mux_video_chunks`) and the streaming mode that stamps packets as they
are emitted or duplicated (`remove_iframes_and_duplicate_pframes` with
`stamp_and_mux`) — with every emitted packet carrying a decode time; and
the streaming mode computes each new decode timestamp as
`max(incoming_or_next+interval, next + interval)`. -/
theorem output_dts_strict_mono (tb : ℚ) (ft : Int) (ds de da : Option ℚ)
    (dc ticks : Int) (pkts : List Packet) (chunks : List FrameChunk)
    (hft : 1 ≤ ft) :
    (∀ q ∈ remove_iframes_and_duplicate_pframes tb ft ds de da dc pkts,
        q.dts ≠ none)
    ∧ List.Chain' (· < ·)
        (dts_vals (remove_iframes_and_duplicate_pframes tb ft ds de da dc
          pkts))
    ∧ List.Chain' (· < ·)
        ((mux_video_chunks ticks chunks).map (fun m => m.dts))
    ∧ ∀ (c : Int × Int) (q : Packet),
        (stamp_and_mux ft (some c) q).2.dts
          = some (max (q.dts.getD (c.2 + ft)) (c.2 + ft)) := by
  obtain ⟨h1, h2⟩ := classic_loop_chain_none tb ft ds de da dc hft pkts
    false false
  exact ⟨h2, h1, mux_chunks_chain ticks chunks, fun c q => rfl⟩

/-- C2 witness: a concrete run whose source packets repeat decode time 1
still yields strictly increasing output decode times. -/
theorem output_dts_strict_mono_witness :
    (1 : Int) ≤ 1
    ∧ ((∀ q ∈ remove_iframes_and_duplicate_pframes 1 1 none none (some 0) 3
          [⟨[9], some 0, some 0, true⟩, ⟨[7], some 1, some 1, false⟩,
            ⟨[7], some 1, some 1, false⟩],
        q.dts ≠ none)
      ∧ List.Chain' (· < ·)
          (dts_vals (remove_iframes_and_duplicate_pframes 1 1 none none
            (some 0) 3
            [⟨[9], some 0, some 0, true⟩, ⟨[7], some 1, some 1, false⟩,
              ⟨[7], some 1, some 1, false⟩]))
      ∧ List.Chain' (· < ·)
          ((mux_video_chunks 5
            [⟨[1], 1, some 100, some 100⟩, ⟨[2], 1, some 0, some 0⟩]).map
            (fun m => m.dts))
      ∧ ∀ (c : Int × Int) (q : Packet),
          (stamp_and_mux 1 (some c) q).2.dts
            = some (max (q.dts.getD (c.2 + 1)) (c.2 + 1))) :=
  ⟨le_refl 1,
    output_dts_strict_mono 1 1 none none (some 0) 3 5
      [⟨[9], some 0, some 0, true⟩, ⟨[7], some 1, some 1, false⟩,
        ⟨[7], some 1, some 1, false⟩]
      [⟨[1], 1, some 100, some 100⟩, ⟨[2], 1, some 0, some 0⟩] (le_refl 1)⟩

theorem classic_step_length (tb : ℚ) (ft : Int) (ds de da : Option ℚ)
    (dc : Int) (s : ClassicState) (p : Packet) :
    (classic_step tb ft ds de da dc s p).2.length
        + (if (classic_step tb ft ds de da dc s p).1.dupDone = true then 0
           else (min dc 20).toNat)
      ≤ 1 + (if s.dupDone = true then 0 else (min dc 20).toNat) := by
  by_cases h0 : p.dts = none ∧ p.pts = none
  · rw [classic_step_eq_skip tb ft ds de da dc s p h0]
    simp
  · by_cases hk : p.isKeyframe = true
    · by_cases hfk : s.firstKeySeen = false
      · rw [classic_step_eq_first tb ft ds de da dc s p h0 hk hfk]
        simp
      · have hfk' : s.firstKeySeen = true := by
          cases hb : s.firstKeySeen
          · exact absurd hb hfk
          · rfl
        by_cases hw : in_drop_window ds de (((p.dts.getD 0 : Int) : ℚ) * tb)
            = true
        · rw [classic_step_eq_drop tb ft ds de da dc s p h0 hk hfk' hw]
          simp
        · rw [classic_step_eq_plain tb ft ds de da dc s p h0
            (by simp [hfk']) (by simp [hw]) (by simp [hk])]
          simp
    · have hk' : p.isKeyframe = false := by
        cases hb : p.isKeyframe
        · rfl
        · exact absurd hb hk
      by_cases hfire : s.dupDone = false
          ∧ dup_ready da (((p.dts.getD 0 : Int) : ℚ) * tb) = true
      · rw [classic_step_eq_burst tb ft ds de da dc s p h0 hk' hfire.1
          hfire.2]
        simp [dup_packets_length, hfire.1]
        omega
      · rw [classic_step_eq_plain tb ft ds de da dc s p h0
          (by simp [hk']) (by simp [hk'])
          (fun hcon => hfire ⟨hcon.1, hcon.2.2⟩)]
        simp

theorem classic_loop_length (tb : ℚ) (ft : Int) (ds de da : Option ℚ)
    (dc : Int) (pkts : List Packet) :
    ∀ s : ClassicState,
      (classic_loop tb ft ds de da dc s pkts).length
        ≤ pkts.length + (if s.dupDone = true then 0 else (min dc 20).toNat) := by
  induction pkts with
  | nil => intro s; simp [classic_loop]
  | cons p rest ih =>
    intro s
    simp only [classic_loop, List.length_append, List.length_cons]
    have h1 := classic_step_length tb ft ds de da dc s p
    have h2 := ih (classic_step tb ft ds de da dc s p).1
    omega

/-- C10: in classic-mode P-frame duplication, the burst fires on an
emitted DELTA packet at or past `dup_at` while `dup_done` is still
unset, emitting exactly `(min dup_count 20).toNat` extra copies (a
request above 20 is capped, a negative request yields none) and latching
`dup_done`; once `dup_done` is set no step emits more than one packet,
a non-qualifying step never sets it, and a whole run emits at most
`input length + (min dup_count 20).toNat` packets. -/
theorem dup_burst_once_and_capped (tb : ℚ) (ft : Int) (ds de : Option ℚ)
    (a : ℚ) (dc : Int) (s : ClassicState) (p : Packet)
    (pkts : List Packet) :
    (s.dupDone = false → p.isKeyframe = false →
      ¬(p.dts = none ∧ p.pts = none) →
      a ≤ ((p.dts.getD 0 : Int) : ℚ) * tb →
      (classic_step tb ft ds de (some a) dc s p).2.length
          = 1 + (min dc 20).toNat
        ∧ (classic_step tb ft ds de (some a) dc s p).1.dupDone = true)
    ∧ (s.dupDone = true →
        (classic_step tb ft ds de (some a) dc s p).2.length ≤ 1
        ∧ (classic_step tb ft ds de (some a) dc s p).1.dupDone = true)
    ∧ (s.dupDone = false →
        ¬(p.isKeyframe = false ∧ ¬(p.dts = none ∧ p.pts = none)
            ∧ a ≤ ((p.dts.getD 0 : Int) : ℚ) * tb) →
        (classic_step tb ft ds de (some a) dc s p).2.length ≤ 1
        ∧ (classic_step tb ft ds de (some a) dc s p).1.dupDone = false)
    ∧ (remove_iframes_and_duplicate_pframes tb ft ds de (some a) dc
          pkts).length
        ≤ pkts.length + (min dc 20).toNat := by
  refine ⟨?_, ?_, ?_, ?_⟩
  · intro hdd hk h0 hr
    rw [classic_step_eq_burst tb ft ds de (some a) dc s p h0 hk hdd
      (decide_eq_true hr)]
    exact ⟨by simp [dup_packets_length]; omega, rfl⟩
  · intro hdd
    by_cases h0 : p.dts = none ∧ p.pts = none
    · rw [classic_step_eq_skip tb ft ds de (some a) dc s p h0]
      exact ⟨by simp, hdd⟩
    · by_cases hk : p.isKeyframe = true
      · by_cases hfk : s.firstKeySeen = false
        · rw [classic_step_eq_first tb ft ds de (some a) dc s p h0 hk hfk]
          exact ⟨by simp, hdd⟩
        · have hfk' : s.firstKeySeen = true := by
            cases hb : s.firstKeySeen
            · exact absurd hb hfk
            · rfl
          by_cases hw : in_drop_window ds de (((p.dts.getD 0 : Int) : ℚ) * tb)
              = true
          · rw [classic_step_eq_drop tb ft ds de (some a) dc s p h0 hk hfk'
              hw]
            exact ⟨by simp, hdd⟩
          · rw [classic_step_eq_plain tb ft ds de (some a) dc s p h0
              (by simp [hfk']) (by simp [hw]) (by simp [hk])]
            exact ⟨by simp, hdd⟩
      · have hk' : p.isKeyframe = false := by
          cases hb : p.isKeyframe
          · rfl
          · exact absurd hb hk
        rw [classic_step_eq_plain tb ft ds de (some a) dc s p h0
          (by simp [hk']) (by simp [hk']) (by simp [hdd])]
        exact ⟨by simp, hdd⟩
  · intro hdd hnq
    by_cases h0 : p.dts = none ∧ p.pts = none
    · rw [classic_step_eq_skip tb ft ds de (some a) dc s p h0]
      exact ⟨by simp, hdd⟩
    · by_cases hk : p.isKeyframe = true
      · by_cases hfk : s.firstKeySeen = false
        · rw [classic_step_eq_first tb ft ds de (some a) dc s p h0 hk hfk]
          exact ⟨by simp, hdd⟩
        · have hfk' : s.firstKeySeen = true := by
            cases hb : s.firstKeySeen
            · exact absurd hb hfk
            · rfl
          by_cases hw : in_drop_window ds de (((p.dts.getD 0 : Int) : ℚ) * tb)
              = true
          · rw [classic_step_eq_drop tb ft ds de (some a) dc s p h0 hk hfk'
              hw]
            exact ⟨by simp, hdd⟩
          · rw [classic_step_eq_plain tb ft ds de (some a) dc s p h0
              (by simp [hfk']) (by simp [hw]) (by simp [hk])]
            exact ⟨by simp, hdd⟩
      · have hk' : p.isKeyframe = false := by
          cases hb : p.isKeyframe
          · rfl
          · exact absurd hb hk
        have hnr : ¬ a ≤ ((p.dts.getD 0 : Int) : ℚ) * tb := by
          intro hr
          exact hnq ⟨hk', h0, hr⟩
        rw [classic_step_eq_plain tb ft ds de (some a) dc s p h0
          (by simp [hk']) (by simp [hk'])
          (fun hcon => hnr (of_decide_eq_true hcon.2.2))]
        exact ⟨by simp, hdd⟩
  · have h := classic_loop_length tb ft ds de (some a) dc pkts
      ⟨none, false, false⟩
    simpa [remove_iframes_and_duplicate_pframes] using h

/-- C10 witness: a requested `dup_count = 25` emits exactly 20 copies on
the first qualifying DELTA packet, and a whole run stays within the
capped bound. -/
theorem dup_burst_once_and_capped_witness :
    ((⟨some (0, 0), true, false⟩ : ClassicState).dupDone = false)
    ∧ (classic_step 1 1 none none (some 0) 25 ⟨some (0, 0), true, false⟩
        ⟨[7], some 1, some 1, false⟩).2.length = 1 + (min (25 : Int) 20).toNat
    ∧ (classic_step 1 1 none none (some 0) 25 ⟨some (0, 0), true, false⟩
        ⟨[7], some 1, some 1, false⟩).1.dupDone = true
    ∧ (remove_iframes_and_duplicate_pframes 1 1 none none (some 0) 25
        [⟨[9], some 0, some 0, true⟩, ⟨[7], some 1, some 1, false⟩]).length
        ≤ 2 + ((min 25 20 : Int)).toNat := by
  have h := dup_burst_once_and_capped 1 1 none none 0 25
    ⟨some (0, 0), true, false⟩ ⟨[7], some 1, some 1, false⟩
    [⟨[9], some 0, some 0, true⟩, ⟨[7], some 1, some 1, false⟩]
  have h1 := h.1 rfl rfl (by simp) (by norm_num)
  exact ⟨rfl, h1.1, h1.2, by simpa using h.2.2.2⟩

end Datamosh
